import Mathlib

/-!
Verification of the IronGraph agent execution core against its
natural-language specification.

The Rust sources are shallowly embedded: strings are `List Char` (all
patterns the code searches for are ASCII, so Rust byte indices coincide
with character indices at every slicing point the code performs),
fallible operations return `Except`/`Option`, ambient mutable state is
passed explicitly, and external effects (the OS filesystem, the PTY
channel, the third-party regex engine and syntax parsers) are oracles
passed as explicit function parameters.
-/

/-! ## Generic string helpers (List Char versions of the Rust str operations) -/

/-- Index of the first occurrence of `pat` in `s`, as in Rust `str::find`. -/
def listFind? (pat : List Char) : List Char → Option Nat
  | [] => if pat.isPrefixOf ([] : List Char) then some 0 else none
  | c :: t =>
    if pat.isPrefixOf (c :: t) then some 0
    else (listFind? pat t).map (· + 1)

/-- Index of the last occurrence of the character `c` in `s`, as in Rust `str::rfind(char)`. -/
def rfindChar (c : Char) : List Char → Option Nat
  | [] => none
  | a :: t =>
    match rfindChar c t with
    | some k => some (k + 1)
    | none => if a = c then some 0 else none

/-- Whether `pat` occurs as a contiguous substring of `s`. -/
def containsSub (pat s : List Char) : Bool :=
  (listFind? pat s).isSome

/-- Rust `str::trim` (both ends; the code only ever meets ASCII whitespace). -/
def trimChars (s : List Char) : List Char :=
  ((s.dropWhile Char.isWhitespace).reverse.dropWhile Char.isWhitespace).reverse

theorem isPrefixOf_length {pat s : List Char} (h : pat.isPrefixOf s = true) :
    pat.length ≤ s.length := by
  induction pat generalizing s with
  | nil => simp
  | cons a as ih =>
    cases s with
    | nil => simp [List.isPrefixOf] at h
    | cons b bs =>
      simp only [List.isPrefixOf, Bool.and_eq_true, beq_iff_eq] at h
      simpa using Nat.succ_le_succ (ih h.2)

/-- Fuelled helper for `trimStartM`; each successful strip of a nonempty
pattern shortens the string by at least one character, so fuel
`s.length + 1` can never run out. -/
def trimStartMF (pat : List Char) : Nat → List Char → List Char
  | 0, s => s
  | n + 1, s =>
    if pat.isPrefixOf s && !pat.isEmpty then trimStartMF pat n (s.drop pat.length)
    else s

/-- Rust `str::trim_start_matches`: strip every leading repetition of `pat`. -/
def trimStartM (pat s : List Char) : List Char :=
  trimStartMF pat (s.length + 1) s

def isAsciiDigit (c : Char) : Bool := '0' ≤ c && c ≤ '9'

def digitsToNat (l : List Char) : Nat :=
  l.foldl (fun a c => a * 10 + (c.toNat - '0'.toNat)) 0

/-- Rust `str::parse::<i32>()`: optional sign, at least one ASCII digit, nothing
else, and the value must fit in `i32` (overflow is a parse error). -/
def parseI32 (s : List Char) : Option Int :=
  match s with
  | [] => none
  | c :: rest =>
    let signAndDigits : Bool × List Char :=
      if c = '-' then (true, rest) else if c = '+' then (false, rest) else (false, s)
    let neg := signAndDigits.1
    let digits := signAndDigits.2
    if digits = [] then none
    else if digits.all isAsciiDigit then
      let v : Int := (digitsToNat digits : Nat)
      let v := if neg then -v else v
      if -2147483648 ≤ v ∧ v ≤ 2147483647 then some v else none
    else none

/-- Decimal rendering of a `Nat`, as Rust `format!` renders `usize`. -/
def natToChars (n : Nat) : List Char := Nat.toDigits 10 n

/-- Decimal rendering of an `Int`, as Rust `format!` renders `i32`. -/
def intToChars (i : Int) : List Char :=
  if i < 0 then '-' :: natToChars i.natAbs else natToChars i.natAbs

/-! ## Streaming tool-call parser (crates/llm_gateway/src/lib.rs) -/

/-- `StreamEvent` from llm_gateway. -/
inductive StreamEvent where
  | Token : List Char → StreamEvent
  | ToolStart : List Char → StreamEvent
  | ToolArg : List Char → List Char → StreamEvent
  | ToolEnd : StreamEvent
  | Error : List Char → StreamEvent
  | Done : StreamEvent
deriving DecidableEq, Repr

/-- `ParserState` from llm_gateway. The Rust variants each carry a `String`
payload that the code only ever sets to `""` and never reads, so it is omitted. -/
inductive PState where
  | text
  | inTag
  | inToolArg
deriving DecidableEq, Repr

/-- The `Parser` struct from llm_gateway. -/
structure Parser where
  buffer : List Char
  state : PState
  current_tool : Option (List Char)
deriving DecidableEq, Repr

def Parser.new : Parser := ⟨[], PState.text, none⟩

/-- One iteration of the `loop` in `Parser::process_chunk`. Returns the events
pushed during the iteration, the mutated parser, and whether the Rust code
reaches `continue` (`true`) or `break` (`false`).

In the `InToolArg` argument branch the Rust slice
`buffer[start+end+1..closing_idx]` always has `closing_idx ≥ start+end+1`
(the closing tag cannot begin inside the opening tag, whose only `>` is its
final byte, nor before the first `<` of the buffer); the truncated `Nat`
subtraction below is therefore never exercised on reachable inputs. -/
def parseStep (p : Parser) : List StreamEvent × Parser × Bool :=
  match p.state with
  | PState.text =>
    match listFind? "<tool_code>".data p.buffer with
    | some idx =>
      ((if idx > 0 then [StreamEvent.Token (p.buffer.take idx)] else []),
       { p with buffer := p.buffer.drop (idx + 11), state := PState.inTag }, true)
    | none =>
      match rfindChar '<' p.buffer with
      | some q =>
        if p.buffer.take q ≠ [] then
          ([StreamEvent.Token (p.buffer.take q)], { p with buffer := p.buffer.drop q }, false)
        else ([], p, false)
      | none =>
        if p.buffer ≠ [] then
          ([StreamEvent.Token p.buffer], { p with buffer := [] }, false)
        else ([], p, false)
  | PState.inTag =>
    match listFind? "</tool_code>".data p.buffer with
    | some e => ([], { p with buffer := p.buffer.drop (e + 12), state := PState.text }, true)
    | none =>
      match listFind? "<tool".data p.buffer with
      | some ts =>
        match listFind? ['>'] (p.buffer.drop ts) with
        | some tc =>
          let tagContent := (p.buffer.drop ts).take (tc + 1)
          match listFind? "name=\"".data tagContent with
          | some n =>
            match listFind? ['"'] (tagContent.drop (n + 6)) with
            | some q =>
              let name := (tagContent.drop (n + 6)).take q
              ([StreamEvent.ToolStart name],
               { buffer := p.buffer.drop (ts + tc + 1), state := PState.inToolArg,
                 current_tool := some name }, true)
            | none => ([], p, false)
          | none => ([], p, false)
        | none => ([], p, false)
      | none => ([], p, false)
  | PState.inToolArg =>
    match listFind? "</tool>".data p.buffer with
    | some te =>
      ([StreamEvent.ToolEnd],
       { buffer := p.buffer.drop (te + 7), state := PState.inTag, current_tool := none }, true)
    | none =>
      match listFind? ['<'] p.buffer with
      | some st =>
        match listFind? ['>'] (p.buffer.drop st) with
        | some en =>
          let tagFull := (p.buffer.drop st).take (en + 1)
          if ("</".data).isPrefixOf tagFull then ([], p, false)
          else
            let argName :=
              ((tagFull.dropWhile (fun c => c = '<' || c = '>')).reverse.dropWhile
                (fun c => c = '<' || c = '>')).reverse
            let closing := "</".data ++ argName ++ ['>']
            match listFind? closing p.buffer with
            | some ci =>
              ([StreamEvent.ToolArg argName ((p.buffer.drop (st + en + 1)).take (ci - (st + en + 1)))],
               { p with buffer := p.buffer.drop (ci + closing.length) }, true)
            | none => ([], p, false)
        | none => ([], p, false)
      | none => ([], p, false)

/-- The `loop` of `Parser::process_chunk`, driven by fuel. Every iteration that
reaches `continue` strictly shortens the buffer (each transition drops at least
the matched tag, which is nonempty), so fuel `buffer.length + 1` can never be
exhausted; all theorems below evaluate the loop on concrete inputs where this
is checked by computation. -/
def parseLoop : Nat → Parser → List StreamEvent → List StreamEvent × Parser
  | 0, p, acc => (acc, p)
  | n + 1, p, acc =>
    match parseStep p with
    | (evs, p', true) => parseLoop n p' (acc ++ evs)
    | (evs, p', false) => (acc ++ evs, p')

/-- `Parser::process_chunk`. -/
def process_chunk (p : Parser) (chunk : List Char) : List StreamEvent × Parser :=
  let p := { p with buffer := p.buffer ++ chunk }
  parseLoop (p.buffer.length + 1) p []

/-- Feed a list of fragments, in order, to a fresh parser and collect all events. -/
def runChunks (chunks : List (List Char)) : List StreamEvent :=
  (chunks.foldl
    (fun acc c =>
      let r := process_chunk acc.2 c
      (acc.1 ++ r.1, r.2))
    (([] : List StreamEvent), Parser.new)).1

/-- The three fragments of spec scenario S2. -/
def s2frag1 : List Char := "<tool_cod".data
def s2frag2 : List Char := "e><tool name=\"foo\"><a>1".data
def s2frag3 : List Char := "</a></tool></tool_code>".data

def isTokenEvent : StreamEvent → Bool
  | StreamEvent.Token _ => true
  | _ => false

/-- C1: feeding the streaming parser the three S2 fragments in order.
The spec (scenario S2 and §4.4) expects the events
`ToolStart("foo"), ToolArg("a","1"), ToolEnd`.  The code instead yields
`ToolStart("foo"), ToolEnd`: when the third fragment arrives, the buffer is
`<a>1</a></tool></tool_code>` and the `InToolArg` arm of
`Parser::process_chunk` tests for `</tool>` *before* extracting a pending
`<key>value</key>` pair, so the pair `<a>1</a>` is discarded and no
`ToolArg` event is ever emitted. -/
theorem c1_parser_split_events :
    runChunks [s2frag1, s2frag2, s2frag3]
      = [StreamEvent.ToolStart "foo".data, StreamEvent.ToolEnd] := by
  decide

/-- C2: chunk-insensitivity fails, and not merely by token coalescing.
For S = the concatenation of the three S2 fragments, feeding S whole yields
no events at all (in state `InTag` the parser finds `</tool_code>` before it
looks for `<tool …>`, silently discarding the whole tool call), while feeding
the three fragments yields `ToolStart` and `ToolEnd`; the two runs differ
already in their non-`Token` events. -/
theorem c2_chunking_changes_events :
    runChunks [s2frag1 ++ s2frag2 ++ s2frag3] = []
    ∧ (runChunks [s2frag1 ++ s2frag2 ++ s2frag3]).filter (fun e => !isTokenEvent e)
        ≠ (runChunks [s2frag1, s2frag2, s2frag3]).filter (fun e => !isTokenEvent e) := by
  exact ⟨by decide, by decide⟩

/-! ## Command executor (run_command in crates/terminal_manager/src/tools.rs, with the
60 s budget, duplicated in crates/agent_core/src/lib.rs execute_tool with a 30 s budget;
the two differ only in that constant, so the model takes the budget as a parameter) -/

/-- Split a character list at every occurrence of `sep`. -/
def splitOnChar (sep : Char) : List Char → List (List Char)
  | [] => [[]]
  | c :: t =>
    match splitOnChar sep t with
    | [] => [[]]
    | h :: r => if c = sep then [] :: h :: r else (c :: h) :: r

/-- Rust `str::lines`: split on newline, drop a final empty piece, strip a
trailing carriage return from each line. -/
def rustLines (s : List Char) : List (List Char) :=
  if s = [] then []
  else
    let parts := splitOnChar '\n' s
    let parts := if parts.getLast? = some [] then parts.dropLast else parts
    parts.map (fun l => if l.getLast? = some '\r' then l.dropLast else l)

def joinSep (sep : List Char) : List (List Char) → List Char
  | [] => []
  | [x] => x
  | x :: xs => x ++ sep ++ joinSep sep xs

/-- The `±5`-line window of `try_parse_error_context`: lines `lines[start..stop]`
rendered as `marker ++ line-number ++ "| " ++ text`, with `>> ` on the error line. -/
def renderSnippet (startIdx line : Nat) (window : List (List Char)) : List Char :=
  joinSep ['\n'] (window.enum.map (fun p =>
    let curr := startIdx + p.1 + 1
    (if curr = line then ">> ".data else "   ".data) ++ natToChars curr ++ "| ".data ++ p.2))

/-- Digits-only `usize` parse for a regex `(\d+)` capture (the code applies
`parse::<usize>().unwrap_or(0)`; 64-bit overflow of a line number is not modelled). -/
def parseNatDigits (l : List Char) : Option Nat :=
  if l ≠ [] ∧ l.all isAsciiDigit then some (digitsToNat l) else none

/-- `try_parse_error_context` from terminal_manager/tools.rs (same code in
agent_core). The three third-party regex matchers are oracles: each returns the
first match's `(file, line)` capture pair of its pattern
(`-->\s+(.+):(\d+):(\d+)` for Rust; for tsc and the generic family, the path
capture is one-or-more of word, dot, slash or dash characters followed by
`\((\d+),\d+\):\s+error` resp. `:(\d+):(\d+)` after start-of-line or
whitespace), or `none` when
the pattern does not match. `readF` is `workspace_manager::read_file_internal`
applied to the workspace root: relative path to file content, `none` on error. -/
def try_parse_error_context
    (rustRe tsRe genRe : List Char → Option (List Char × List Char))
    (readF : List Char → Option (List Char))
    (stderr : List Char) : Option (List Char) :=
  let location : Option (List Char × Nat) :=
    match rustRe stderr with
    | some (f, l) => some (f, (parseNatDigits l).getD 0)
    | none =>
      match tsRe stderr with
      | some (f, l) => some (f, (parseNatDigits l).getD 0)
      | none =>
        match genRe stderr with
        | some (f, l) => if f.contains '.' then some (f, (parseNatDigits l).getD 0) else none
        | none => none
  match location with
  | none => none
  | some (file, line) =>
    match readF file with
    | none => none
    | some content =>
      let lines := rustLines content
      if 0 < line ∧ line ≤ lines.length then
        let start := if line > 5 then line - 5 else 0
        let stop := if line + 5 < lines.length then line + 5 else lines.length
        some ("File: ".data ++ file ++ [':'] ++ natToChars line ++ ":\n".data
              ++ renderSnippet start line ((lines.drop start).take (stop - start)))
      else none

/-- One observation of `tokio::time::timeout(5 s, rx.recv())` inside the wait
loop: a chunk that arrived `delay` seconds after the previous observation
(`Ok(Some(s))`), the 5 s timer expiry (`Err(_)`), or channel closure (`Ok(None)`). -/
inductive RecvOutcome where
  | chunk (delay : Nat) (s : List Char)
  | timeout
  | closed
deriving DecidableEq, Repr

/-- Wait-loop state: the `output` accumulator, `start.elapsed()` in seconds,
and whether the CommandBuffer subscriber slot still holds this command's sender. -/
structure ExecState where
  output : List Char
  elapsed : Nat
  installed : Bool
deriving DecidableEq, Repr

/-- Result of running the executor on a finite observation trace: either the
function returned (with the final string and the state of the subscriber
slot), or the trace ran out while the loop was still waiting for more output. -/
inductive ExecResult where
  | finished (result : List Char) (installedAfter : Bool)
  | pending (st : ExecState)
deriving DecidableEq, Repr

def sentinelStr : List Char := "IRONGRAPH_CMD_DONE:".data

/-- Exit-code extraction on sentinel hit:
`rest.trim_start_matches("IRONGRAPH_CMD_DONE:").trim().parse::<i32>().unwrap_or(1)`. -/
def exitCodeOf (rest : List Char) : Int :=
  (parseI32 (trimChars (trimStartM sentinelStr rest))).getD 1

/-- The sentinel-hit branch of the wait loop: split the accumulator at the
sentinel, format `"<trimmed pre>\n(Exit Code: <N>)"`, and when `N ≠ 0` append
the `[Auto-Debug]` context if `try_parse_error_context` (here the composed
oracle `dbg`) produces one. -/
def sentinelResult (dbg : List Char → Option (List Char)) (out : List Char) (idx : Nat) :
    List Char :=
  let ret := out.take idx
  let rest := out.drop idx
  let exit := exitCodeOf rest
  let base := trimChars ret ++ "\n(Exit Code: ".data ++ intToChars exit ++ [')']
  if exit ≠ 0 then
    match dbg ret with
    | some ctx => base ++ "\n\n[Auto-Debug] Context:\n".data ++ ctx
    | none => base
  else base

def timeoutMsg : List Char := "\n[IronGraph: Timeout waiting for sentinel]".data

/-- The wait loop of `run_command`. On `timeout` the code re-reads the wall
clock (which has advanced by the 5 s window) and only then compares it with
the budget; on a chunk it appends and scans for the sentinel without ever
consulting the wall clock. Every `return`/`break` path after the PTY write
clears the subscriber slot. -/
def execLoop (dbg : List Char → Option (List Char)) (timeoutSecs : Nat) :
    List RecvOutcome → ExecState → ExecResult
  | [], st => ExecResult.pending st
  | RecvOutcome.timeout :: rest, st =>
    if st.elapsed + 5 > timeoutSecs then ExecResult.finished (st.output ++ timeoutMsg) false
    else execLoop dbg timeoutSecs rest { st with elapsed := st.elapsed + 5 }
  | RecvOutcome.closed :: _, st => ExecResult.finished st.output false
  | RecvOutcome.chunk d s :: rest, st =>
    let out := st.output ++ s
    match listFind? sentinelStr out with
    | some idx => ExecResult.finished (sentinelResult dbg out idx) false
    | none =>
      execLoop dbg timeoutSecs rest { output := out, elapsed := st.elapsed + d, installed := st.installed }

/-- `run_command` after command formatting: the subscriber channel is created
and installed in the `command_buffer` slot, then the sentinel-wrapped line is
written to the PTY. `writeErr = some e` models `write_to_pty` failing with io
error text `e`: the code returns `"Error writing to PTY: <e>"` immediately —
without clearing the just-installed subscriber. Otherwise the wait loop runs
on the observation trace. -/
def runCommand (dbg : List Char → Option (List Char)) (timeoutSecs : Nat)
    (writeErr : Option (List Char)) (trace : List RecvOutcome) : ExecResult :=
  match writeErr with
  | some e => ExecResult.finished ("Error writing to PTY: ".data ++ e) true
  | none => execLoop dbg timeoutSecs trace ⟨[], 0, true⟩

theorem isPrefixOf_append_right {pat l r : List Char} (h : pat.isPrefixOf l = true) :
    pat.isPrefixOf (l ++ r) = true := by
  induction pat generalizing l with
  | nil => simp
  | cons a as ih =>
    cases l with
    | nil => simp [List.isPrefixOf] at h
    | cons b bs =>
      simp only [List.isPrefixOf, Bool.and_eq_true, beq_iff_eq] at h ⊢
      exact ⟨h.1, ih h.2⟩

theorem containsSub_append_right {pat l r : List Char} (h : containsSub pat l = true) :
    containsSub pat (l ++ r) = true := by
  induction l with
  | nil =>
    have hpe : pat = [] := by
      cases hpp : pat.isPrefixOf ([] : List Char) with
      | true =>
        cases pat with
        | nil => rfl
        | cons a as => simp [List.isPrefixOf] at hpp
      | false => simp [containsSub, listFind?, hpp] at h
    subst hpe
    cases r <;> simp [containsSub, listFind?, List.isPrefixOf]
  | cons c t ih =>
    cases hb : pat.isPrefixOf (c :: (t ++ r)) with
    | true => simp [containsSub, listFind?, hb]
    | false =>
      have hb' : pat.isPrefixOf (c :: t) = false := by
        cases hcc : pat.isPrefixOf (c :: t) with
        | false => rfl
        | true =>
          have h2 := isPrefixOf_append_right (r := r) hcc
          rw [List.cons_append] at h2
          rw [h2] at hb
          simp at hb
      have hsome : containsSub pat t = true := by
        simp [containsSub, listFind?, hb'] at h
        simpa [containsSub] using h
      have h2 := ih hsome
      simp [containsSub, listFind?, hb]
      simpa [containsSub] using h2

/-- Join the chunk payloads of a chunk-only arrival schedule. -/
def joinChunks (cs : List (Nat × List Char)) : List Char :=
  cs.foldr (fun p acc => p.2 ++ acc) []

/-- Total seconds spanned by a chunk-only arrival schedule. -/
def sumDelays (cs : List (Nat × List Char)) : Nat :=
  cs.foldr (fun p acc => p.1 + acc) 0

/-- A chunk-only arrival schedule as an observation trace (every read window
is met by a chunk, so the 5 s timer never fires). -/
def toTrace (cs : List (Nat × List Char)) : List RecvOutcome :=
  cs.map (fun p => RecvOutcome.chunk p.1 p.2)

theorem execLoop_chunks_pending (dbg : List Char → Option (List Char)) (timeoutSecs : Nat)
    (cs : List (Nat × List Char)) :
    ∀ st : ExecState, containsSub sentinelStr (st.output ++ joinChunks cs) = false →
      execLoop dbg timeoutSecs (toTrace cs) st
        = ExecResult.pending ⟨st.output ++ joinChunks cs, st.elapsed + sumDelays cs, st.installed⟩ := by
  induction cs with
  | nil => intro st h; simp [toTrace, execLoop, joinChunks, sumDelays]
  | cons p cs ih =>
    intro st h
    obtain ⟨d, s⟩ := p
    have hassoc : st.output ++ joinChunks ((d, s) :: cs)
        = (st.output ++ s) ++ joinChunks cs := by
      simp [joinChunks, List.append_assoc]
    have hfind : listFind? sentinelStr (st.output ++ s) = none := by
      cases hf : listFind? sentinelStr (st.output ++ s) with
      | none => rfl
      | some k =>
        have hc : containsSub sentinelStr ((st.output ++ s) ++ joinChunks cs) = true :=
          containsSub_append_right (by simp [containsSub, hf])
        rw [hassoc] at h
        rw [hc] at h
        simp at h
    have h' : containsSub sentinelStr ((st.output ++ s) ++ joinChunks cs) = false := by
      rw [hassoc] at h; exact h
    simp only [toTrace, List.map_cons, execLoop, hfind]
    have := ih ⟨st.output ++ s, st.elapsed + d, st.installed⟩ h'
    simp only [toTrace] at this
    rw [this]
    simp [joinChunks, sumDelays, List.append_assoc, Nat.add_assoc]

/-- C5: the wall-clock budget is not enforced. The code reads the wall clock
only inside the 5 s per-chunk timeout branch, so on any arrival schedule in
which every read window is met by a chunk and the sentinel never appears, the
executor never returns — regardless of how far `start.elapsed()` has run past
the 30 s / 60 s budget — and the timeout message is never appended. The claim
instead requires termination with the timeout message once the budget is
exceeded. -/
theorem c5_wall_clock_not_enforced (dbg : List Char → Option (List Char))
    (timeoutSecs : Nat) (cs : List (Nat × List Char))
    (h : containsSub sentinelStr (joinChunks cs) = false) :
    runCommand dbg timeoutSecs none (toTrace cs)
      = ExecResult.pending ⟨joinChunks cs, sumDelays cs, true⟩ := by
  have := execLoop_chunks_pending dbg timeoutSecs cs ⟨[], 0, true⟩ (by simpa using h)
  simpa [runCommand] using this

/-- Sixty-one seconds of chatty non-sentinel output, one chunk per second. -/
def c5chunks : List (Nat × List Char) := List.replicate 61 (1, ['x'])

theorem c5_wall_clock_not_enforced_witness :
    runCommand (fun _ => none) 60 none (toTrace c5chunks)
      = ExecResult.pending ⟨joinChunks c5chunks, sumDelays c5chunks, true⟩
    ∧ 60 < sumDelays c5chunks :=
  ⟨c5_wall_clock_not_enforced (fun _ => none) 60 c5chunks (by decide), by decide⟩

/-- C4: the subscriber slot across the executor's exit paths. The first three
conjuncts show the sentinel, wall-clock-timeout and channel-closure paths do
clear the `command_buffer` slot; the last shows the PTY-write-error path does
not: `run_command` installs the subscriber *before* calling `write_to_pty` and
returns the error without the cleanup block, leaving the slot occupied. -/
theorem c4_subscriber_slot_exit_paths :
    runCommand (fun _ => none) 30 none [RecvOutcome.chunk 1 "hi\nIRONGRAPH_CMD_DONE:0".data]
      = ExecResult.finished "hi\n(Exit Code: 0)".data false
    ∧ runCommand (fun _ => none) 30 none (List.replicate 7 RecvOutcome.timeout)
      = ExecResult.finished timeoutMsg false
    ∧ runCommand (fun _ => none) 30 none [RecvOutcome.closed]
      = ExecResult.finished [] false
    ∧ runCommand (fun _ => none) 30 (some "Broken pipe (os error 32)".data) []
      = ExecResult.finished "Error writing to PTY: Broken pipe (os error 32)".data true := by
  exact ⟨by decide, by decide, by decide, by decide⟩

/-- C3 (amended): whenever a chunk makes the accumulated output contain the
sentinel (first occurrence at `idx`), the wait loop returns
`"<pre-sentinel output, trimmed>\n(Exit Code: <N>)"` — with N parsed (default 1
on failure) from the trimmed text left after stripping the sentinel literal —
*followed, when N ≠ 0 and `try_parse_error_context` finds a source location in
the pre-sentinel output, by the `[Auto-Debug] Context` block*; and the
subscriber slot is clear on return. -/
theorem c3_sentinel_format (dbg : List Char → Option (List Char)) (timeoutSecs d : Nat)
    (s : List Char) (rest : List RecvOutcome) (st : ExecState) (idx : Nat)
    (h : listFind? sentinelStr (st.output ++ s) = some idx) :
    execLoop dbg timeoutSecs (RecvOutcome.chunk d s :: rest) st
      = ExecResult.finished
          (trimChars ((st.output ++ s).take idx)
           ++ "\n(Exit Code: ".data ++ intToChars (exitCodeOf ((st.output ++ s).drop idx)) ++ [')']
           ++ (if exitCodeOf ((st.output ++ s).drop idx) = 0 then []
               else
                 match dbg ((st.output ++ s).take idx) with
                 | some ctx => "\n\n[Auto-Debug] Context:\n".data ++ ctx
                 | none => []))
          false := by
  simp only [execLoop, h]
  unfold sentinelResult
  by_cases hz : exitCodeOf ((st.output ++ s).drop idx) = 0
  · simp [hz]
  · cases hd : dbg ((st.output ++ s).take idx) <;> simp [hz, hd, List.append_assoc]

def c3wOut : List Char := "ok\nIRONGRAPH_CMD_DONE:0".data

theorem c3_sentinel_format_witness :
    execLoop (fun _ => none) 30 [RecvOutcome.chunk 1 c3wOut] ⟨[], 0, true⟩
      = ExecResult.finished "ok\n(Exit Code: 0)".data false :=
  (c3_sentinel_format (fun _ => none) 30 1 c3wOut [] ⟨[], 0, true⟩ 3 (by decide)).trans
    (by decide)

/-- The pre-sentinel output of the C3 counterexample run: a compiler diagnostic
carrying a Rust-style source location. -/
def c3ret : List Char := "cc --> src/main.rs:3:1 boom\n".data

/-- The Rust-family regex oracle evaluated by hand on `c3ret`: the pattern
`-->\s+(.+):(\d+):(\d+)` first matches at the `-->`, the greedy `(.+)` backs
off to `src/main.rs`, and the captures are `("src/main.rs", "3")`. -/
def c3rustRe : List Char → Option (List Char × List Char) :=
  fun s => if s = c3ret then some ("src/main.rs".data, "3".data) else none

def oracleNone : List Char → Option (List Char × List Char) := fun _ => none

/-- A workspace in which `src/main.rs` holds the eight lines `l1` … `l8`. -/
def c3readF : List Char → Option (List Char) :=
  fun f => if f = "src/main.rs".data then some "l1\nl2\nl3\nl4\nl5\nl6\nl7\nl8".data else none

def c3dbg : List Char → Option (List Char) :=
  try_parse_error_context c3rustRe oracleNone oracleNone c3readF

def c3out : List Char := c3ret ++ sentinelStr ++ ['2']

/-- The string C3, as stated, says the executor returns on `c3out`:
the trimmed pre-sentinel output followed by the exit-code suffix and nothing else. -/
def c3claimed : List Char := trimChars c3ret ++ "\n(Exit Code: 2)".data

set_option maxRecDepth 4000 in
/-- C3 counterexample: with a nonzero exit code and a source location in the
output, the executor returns the claimed string *plus* an `[Auto-Debug]`
context block, so the returned string is not equal to the claimed one. -/
theorem c3_counterexample :
    runCommand c3dbg 30 none [RecvOutcome.chunk 1 c3out]
      = ExecResult.finished
          (c3claimed ++ "\n\n[Auto-Debug] Context:\nFile: src/main.rs:3:\n   1| l1\n   2| l2\n>> 3| l3\n   4| l4\n   5| l5\n   6| l6\n   7| l7\n   8| l8".data)
          false
    ∧ c3claimed
        ++ "\n\n[Auto-Debug] Context:\nFile: src/main.rs:3:\n   1| l1\n   2| l2\n>> 3| l3\n   4| l4\n   5| l5\n   6| l6\n   7| l7\n   8| l8".data
        ≠ c3claimed := by
  exact ⟨by decide, by decide⟩

/-! ## Agent loop stream consumption (spawn_agent_loop in crates/agent_core/src/lib.rs) -/

/-- `ToolCall` from llm_gateway; the `HashMap` of arguments is modelled as an
association list with insert-replaces-value semantics (iteration order is
irrelevant to the claims below). -/
structure ToolCall where
  name : List Char
  arguments : List (List Char × List Char)
deriving DecidableEq, Repr

/-- `HashMap::insert`: replace the value under an existing key, else add the pair. -/
def insertArg (k v : List Char) (m : List (List Char × List Char)) :
    List (List Char × List Char) :=
  if m.any (fun p => p.1 = k) then m.map (fun p => if p.1 = k then (k, v) else p)
  else m ++ [(k, v)]

/-- The per-turn mutable state of the gateway-stream loop: the assistant
content accumulator, the pending tool call, and this turn's tool-call list. -/
structure TurnState where
  content : List Char
  currentName : Option (List Char)
  currentArgs : List (List Char × List Char)
  calls : List ToolCall
deriving DecidableEq, Repr

/-- The event `match` inside `while let Some(event) = stream.next()`. -/
def stepEvent (st : TurnState) (e : StreamEvent) : TurnState :=
  match e with
  | StreamEvent.Token t => { st with content := st.content ++ t }
  | StreamEvent.ToolStart n => { st with currentName := some n, currentArgs := [] }
  | StreamEvent.ToolArg k v => { st with currentArgs := insertArg k v st.currentArgs }
  | StreamEvent.ToolEnd =>
    match st.currentName with
    | some n => { st with currentName := none, calls := st.calls ++ [⟨n, st.currentArgs⟩] }
    | none => st
  | StreamEvent.Error _ => st
  | StreamEvent.Done => st

/-- The stream loop run on a trace of observations: each element is the event
returned by `stream.next().await` paired with the value of the atomic
`running` flag read immediately after. When the flag reads `false` the loop
`break`s, discarding that event and everything after it. -/
def runStream : List (StreamEvent × Bool) → TurnState → TurnState
  | [], st => st
  | (e, flag) :: rest, st => if flag then runStream rest (stepEvent st e) else st

def turnInit : TurnState := ⟨[], none, [], []⟩

/-- After the stream loop, `spawn_agent_loop` persists the assistant message
and then — without re-reading the `running` flag — invokes `execute_tool` on
every element of `tool_calls` in order. These are exactly the tool dispatches
of the turn. -/
def dispatchedTools (trace : List (StreamEvent × Bool)) : List ToolCall :=
  (runStream trace turnInit).calls

/-- A trace in which a complete tool call is collected and then the user
cancels: the flag reads `false` at the next event. -/
def c6Trace : List (StreamEvent × Bool) :=
  [(StreamEvent.ToolStart "run_command".data, true),
   (StreamEvent.ToolEnd, true),
   (StreamEvent.Token "x".data, false)]

/-- C6 counterexample: the running flag is observed cleared during the stream
(third observation), yet the loop goes on to dispatch the collected
`run_command` call — `execute_tool` is invoked after the flag was cleared,
contradicting the claim that no further tool call is dispatched. -/
theorem c6_counterexample :
    dispatchedTools c6Trace = [⟨"run_command".data, []⟩]
    ∧ (c6Trace.map Prod.snd).contains false = true := by
  exact ⟨by decide, by decide⟩

/-- C6 (amended): once the running flag reads `false`, the loop consumes at
most that one (discarded) gateway event — every observation after the first
cleared-flag read is irrelevant to the turn — and it collects no further tool
calls; however, tool calls collected before the flag was cleared are still
dispatched. Formally the whole turn equals the turn run on the longest prefix
of flag-true observations. -/
theorem c6_cancellation (trace : List (StreamEvent × Bool)) :
    runStream trace turnInit = runStream (trace.takeWhile (fun p => p.2)) turnInit
    ∧ dispatchedTools trace = dispatchedTools (trace.takeWhile (fun p => p.2)) := by
  have key : ∀ (l : List (StreamEvent × Bool)) (st : TurnState),
      runStream l st = runStream (l.takeWhile (fun p => p.2)) st := by
    intro l
    induction l with
    | nil => intro st; rfl
    | cons p rest ih =>
      intro st
      obtain ⟨e, flag⟩ := p
      cases flag with
      | true => simp [runStream, List.takeWhile, ih]
      | false => simp [runStream, List.takeWhile]
  exact ⟨key trace turnInit, congrArg TurnState.calls (key trace turnInit)⟩

/-! ## Workspace manager path sandboxing and syntax gate
(crates/workspace_manager/src/lib.rs) -/

/-- A Rust `std::path::Component` (the Windows `Prefix` variant cannot arise
from the Unix-style paths modelled here). -/
inductive PComp where
  | rootd
  | curd
  | parentd
  | normald : List Char → PComp
deriving DecidableEq, Repr

/-- Componentisation worker: empty segments are skipped, `.` is kept only as a
leading component of a rootless path, `..` becomes `ParentDir`. -/
def pathCompAux : Bool → List (List Char) → List PComp
  | _, [] => []
  | first, s :: rest =>
    if s = [] then pathCompAux first rest
    else if s = ['.'] then
      if first then PComp.curd :: pathCompAux false rest else pathCompAux false rest
    else if s = ['.', '.'] then PComp.parentd :: pathCompAux false rest
    else PComp.normald s :: pathCompAux false rest

/-- `Path::components()` of a Unix path string. -/
def pathComponents (p : List Char) : List PComp :=
  let isAbs : Bool := match p with | c :: _ => c = '/' | [] => false
  (if isAbs then [PComp.rootd] else []) ++ pathCompAux (!isAbs) (splitOnChar '/' p)

/-- `base.join(user)`: an absolute `user` replaces `base`. -/
def joinP (base : List PComp) (user : List Char) : List PComp :=
  let comps := pathComponents user
  if comps.contains PComp.rootd then comps else base ++ comps

/-- `Path::parent()`: drop the last component; `None` for the root or the
empty path. -/
def parentP (p : List PComp) : Option (List PComp) :=
  match p with
  | [] => none
  | [PComp.rootd] => none
  | _ => some p.dropLast

/-- `FsError` from workspace_manager. The `Io` payload carries the OS error
text, which the model cannot reproduce; a fixed placeholder is used and no
claim inspects it. -/
inductive FsError where
  | Io : List Char → FsError
  | SecurityViolation : FsError
  | InvalidPath : FsError
  | Syntax : List Char → FsError
deriving DecidableEq, Repr

def ioMsg : List Char := "os error".data

/-- The OS filesystem as seen by workspace_manager: `canonical` is
`Path::canonicalize` (resolving symlinks, `none` on error e.g. for a missing
path), `pexists` is `Path::exists`, `readF` is `fs::read_to_string`. -/
structure FsModel where
  canonical : List PComp → Option (List PComp)
  pexists : List PComp → Bool
  readF : List PComp → Option (List Char)

/-- `validate_path` from workspace_manager. -/
def validate_path (fs : FsModel) (base : List PComp) (user : List Char)
    (requireExists : Bool) : Except FsError (List PComp) :=
  if (pathComponents user).contains PComp.parentd then Except.error FsError.SecurityViolation
  else
    let full := joinP base user
    if requireExists then
      match fs.canonical full with
      | none => Except.error (FsError.Io ioMsg)
      | some cp =>
        match fs.canonical base with
        | none => Except.error (FsError.Io ioMsg)
        | some cb =>
          if cb.isPrefixOf cp then Except.ok cp else Except.error FsError.SecurityViolation
    else
      match parentP full with
      | some par =>
        if fs.pexists par then
          match fs.canonical par with
          | none => Except.error (FsError.Io ioMsg)
          | some cpp =>
            match fs.canonical base with
            | none => Except.error (FsError.Io ioMsg)
            | some cb =>
              if cb.isPrefixOf cpp then Except.ok full else Except.error FsError.SecurityViolation
        else Except.ok full
      | none => Except.ok full

/-- `FileContent` from workspace_manager. -/
structure FileContent where
  path : List Char
  content : List Char
deriving DecidableEq, Repr

/-- `read_file_internal`. -/
def read_file_internal (fs : FsModel) (root : List PComp) (file_path : List Char) :
    Except FsError FileContent :=
  match validate_path fs root file_path true with
  | Except.error e => Except.error e
  | Except.ok full =>
    match fs.readF full with
    | none => Except.error (FsError.Io ioMsg)
    | some c => Except.ok ⟨file_path, c⟩

/-- `validate_syntax`. The third-party parsers are oracles: `rustP` is
`syn::parse_file` on the content (`some` its rendered error), `jsP` is the oxc
parser on path-derived source type and content (`some` the rendered first error). -/
def validate_syntax (rustP : List Char → Option (List Char))
    (jsP : List Char → List Char → Option (List Char))
    (path content : List Char) : Except (List Char) Unit :=
  if ".rs".data.isSuffixOf path then
    match rustP content with
    | some e => Except.error ("Rust Syntax Error: ".data ++ e)
    | none => Except.ok ()
  else if ".ts".data.isSuffixOf path || ".js".data.isSuffixOf path
      || ".tsx".data.isSuffixOf path || ".jsx".data.isSuffixOf path then
    match jsP path content with
    | some e => Except.error ("JS/TS Syntax Error: ".data ++ e)
    | none => Except.ok ()
  else Except.ok ()

/-- `write_file_internal`. The second result component is the write effect
performed on the filesystem: `none` when the function returns before reaching
`create_dir_all`/`fs::write`, otherwise the written path and content (the io
success of the write itself, orthogonal to every claim here, is assumed). -/
def write_file_internal (fs : FsModel) (rustP : List Char → Option (List Char))
    (jsP : List Char → List Char → Option (List Char)) (root : List PComp)
    (file_path content : List Char) :
    Except FsError FileContent × Option (List PComp × List Char) :=
  match validate_path fs root file_path false with
  | Except.error e => (Except.error e, none)
  | Except.ok full =>
    match validate_syntax rustP jsP file_path content with
    | Except.error e => (Except.error (FsError.Syntax e), none)
    | Except.ok _ => (Except.ok ⟨file_path, content⟩, some (full, content))

/-- The `list_files` Tauri command: validate the requested sub-directory, then
build the tree from it (`tfun` abstracts `build_file_tree root ·`, which runs
only after validation succeeds). -/
def list_files_cmd {α : Type} (fs : FsModel) (tfun : List PComp → Except FsError α)
    (root : List PComp) (dir_path : Option (List Char)) : Except FsError α :=
  match dir_path with
  | some sub =>
    match validate_path fs root sub true with
    | Except.error e => Except.error e
    | Except.ok start => tfun start
  | none => tfun root

/-- The `read_skeleton` Tauri command: read through `read_file_internal`, then
apply `get_skeleton` (`sk`, an oracle over path and content; its error is
wrapped as `FsError::Io`). -/
def read_skeleton_cmd (fs : FsModel)
    (sk : List Char → List Char → Except (List Char) (List Char))
    (root : List PComp) (file_path : List Char) : Except FsError (List Char) :=
  match read_file_internal fs root file_path with
  | Except.error e => Except.error e
  | Except.ok fc =>
    match sk file_path fc.content with
    | Except.error e => Except.error (FsError.Io e)
    | Except.ok s => Except.ok s

/-- C7: path sandboxing. (1) A user path containing a `..` component is
rejected with `SecurityViolation` by all four effector entry points before any
filesystem access (the result is the same for every filesystem model `fs`,
and the write effect is `none`). (2) When the target of a read-type operation
canonicalises outside the canonicalised root, the operation is rejected.
(3) When the existing parent of a write target canonicalises outside the
canonicalised root, the write is rejected with no write effect. -/
theorem c7_path_sandbox
    (fs : FsModel) (root : List PComp) (p content : List Char)
    (rustP : List Char → Option (List Char))
    (jsP : List Char → List Char → Option (List Char))
    {α : Type} (tfun : List PComp → Except FsError α)
    (sk : List Char → List Char → Except (List Char) (List Char)) :
    ((pathComponents p).contains PComp.parentd = true →
       read_file_internal fs root p = Except.error FsError.SecurityViolation
     ∧ write_file_internal fs rustP jsP root p content
         = (Except.error FsError.SecurityViolation, none)
     ∧ list_files_cmd fs tfun root (some p) = Except.error FsError.SecurityViolation
     ∧ read_skeleton_cmd fs sk root p = Except.error FsError.SecurityViolation)
  ∧ (∀ cp cb, fs.canonical (joinP root p) = some cp → fs.canonical root = some cb →
       cb.isPrefixOf cp = false →
       read_file_internal fs root p = Except.error FsError.SecurityViolation
     ∧ list_files_cmd fs tfun root (some p) = Except.error FsError.SecurityViolation
     ∧ read_skeleton_cmd fs sk root p = Except.error FsError.SecurityViolation)
  ∧ (∀ par cpp cb, parentP (joinP root p) = some par → fs.pexists par = true →
       fs.canonical par = some cpp → fs.canonical root = some cb →
       cb.isPrefixOf cpp = false →
       write_file_internal fs rustP jsP root p content
         = (Except.error FsError.SecurityViolation, none)) := by
  refine ⟨?_, ?_, ?_⟩
  · intro h
    have hmem : PComp.parentd ∈ pathComponents p := by simpa using h
    refine ⟨?_, ?_, ?_, ?_⟩ <;>
      simp [read_file_internal, write_file_internal, list_files_cmd, read_skeleton_cmd,
        validate_path, hmem]
  · intro cp cb hcp hcb hpre
    by_cases hpar : PComp.parentd ∈ pathComponents p
    · refine ⟨?_, ?_, ?_⟩ <;>
        simp [read_file_internal, list_files_cmd, read_skeleton_cmd, validate_path, hpar]
    · refine ⟨?_, ?_, ?_⟩ <;>
        simp [read_file_internal, list_files_cmd, read_skeleton_cmd, validate_path,
          hpar, hcp, hcb, hpre]
  · intro par cpp cb hp hex hcpp hcb hpre
    by_cases hpar : PComp.parentd ∈ pathComponents p
    · simp [write_file_internal, validate_path, hpar]
    · simp [write_file_internal, validate_path, hpar, hp, hex, hcpp, hcb, hpre]

def rootW : List PComp := [PComp.rootd, PComp.normald "ws".data]

def rustPW : List Char → Option (List Char) :=
  fun c => if c = "fn".data then some "expected item".data else none

def jsPW : List Char → List Char → Option (List Char) :=
  fun _ c => if c = "const = ;".data then some "Unexpected token".data else none

def tfunW : List PComp → Except FsError Unit := fun _ => Except.ok ()

def skW : List Char → List Char → Except (List Char) (List Char) := fun _ _ => Except.ok []

/-- A filesystem in which `ws/esc` is a symlink that canonicalises to
`/outside`, while everything else canonicalises to itself. -/
def fs7a : FsModel :=
  ⟨fun pp => if pp = joinP rootW "esc".data
             then some [PComp.rootd, PComp.normald "outside".data] else some pp,
   fun _ => true, fun _ => none⟩

/-- A filesystem in which the directory `ws/sub` canonicalises to `/outside`. -/
def fs7b : FsModel :=
  ⟨fun pp => if pp = rootW ++ [PComp.normald "sub".data]
             then some [PComp.rootd, PComp.normald "outside".data] else some pp,
   fun _ => true, fun _ => none⟩

theorem c7_path_sandbox_witness :
    read_file_internal fs7a rootW "../secret.txt".data
      = Except.error FsError.SecurityViolation
    ∧ write_file_internal fs7a rustPW jsPW rootW "../secret.txt".data "x".data
      = (Except.error FsError.SecurityViolation, none)
    ∧ read_file_internal fs7a rootW "esc".data = Except.error FsError.SecurityViolation
    ∧ write_file_internal fs7b rustPW jsPW rootW "sub/f.txt".data "x".data
      = (Except.error FsError.SecurityViolation, none) :=
  ⟨((c7_path_sandbox fs7a rootW "../secret.txt".data "x".data rustPW jsPW tfunW skW).1
      (by decide)).1,
   ((c7_path_sandbox fs7a rootW "../secret.txt".data "x".data rustPW jsPW tfunW skW).1
      (by decide)).2.1,
   ((c7_path_sandbox fs7a rootW "esc".data "x".data rustPW jsPW tfunW skW).2.1
      [PComp.rootd, PComp.normald "outside".data] rootW (by decide) (by decide) (by decide)).1,
   (c7_path_sandbox fs7b rootW "sub/f.txt".data "x".data rustPW jsPW tfunW skW).2.2
      (rootW ++ [PComp.normald "sub".data]) [PComp.rootd, PComp.normald "outside".data] rootW
      (by decide) (by decide) (by decide) (by decide) (by decide)⟩

/-- C9: the undocumented syntax gate of `write_file_internal`. For a path that
passes `validate_path`, (1) a `.rs` path whose content fails the Rust parser
is rejected with `FsError::Syntax` and no write effect is performed; (2) a
`.ts`/`.js`/`.tsx`/`.jsx` path whose content fails the JS/TS parser is
likewise rejected with no write effect; (3) a path with none of those suffixes
is written without any syntax check, whatever the parser oracles say. -/
theorem c9_syntax_validation
    (fs : FsModel) (root : List PComp) (p content e : List Char)
    (rustP : List Char → Option (List Char))
    (jsP : List Char → List Char → Option (List Char))
    (fp : List PComp) (hvp : validate_path fs root p false = Except.ok fp) :
    (".rs".data.isSuffixOf p = true → rustP content = some e →
       write_file_internal fs rustP jsP root p content
         = (Except.error (FsError.Syntax ("Rust Syntax Error: ".data ++ e)), none))
  ∧ ((".ts".data.isSuffixOf p || ".js".data.isSuffixOf p
        || ".tsx".data.isSuffixOf p || ".jsx".data.isSuffixOf p) = true →
      ".rs".data.isSuffixOf p = false → jsP p content = some e →
       write_file_internal fs rustP jsP root p content
         = (Except.error (FsError.Syntax ("JS/TS Syntax Error: ".data ++ e)), none))
  ∧ (".rs".data.isSuffixOf p = false →
     (".ts".data.isSuffixOf p || ".js".data.isSuffixOf p
        || ".tsx".data.isSuffixOf p || ".jsx".data.isSuffixOf p) = false →
       write_file_internal fs rustP jsP root p content
         = (Except.ok ⟨p, content⟩, some (fp, content))) := by
  refine ⟨?_, ?_, ?_⟩
  · intro hrs hre
    simp [write_file_internal, hvp, validate_syntax, hrs, hre]
  · intro hjs hrs hje
    simp [write_file_internal, hvp, validate_syntax, hrs, hjs, hje]
  · intro hrs hjs
    simp [write_file_internal, hvp, validate_syntax, hrs, hjs]

def fs9 : FsModel := ⟨fun pp => some pp, fun _ => true, fun _ => none⟩

theorem c9_syntax_validation_witness :
    write_file_internal fs9 rustPW jsPW rootW "bad.rs".data "fn".data
      = (Except.error (FsError.Syntax ("Rust Syntax Error: ".data ++ "expected item".data)), none)
    ∧ write_file_internal fs9 rustPW jsPW rootW "bad.ts".data "const = ;".data
      = (Except.error (FsError.Syntax ("JS/TS Syntax Error: ".data ++ "Unexpected token".data)), none)
    ∧ write_file_internal fs9 rustPW jsPW rootW "notes.txt".data "hello".data
      = (Except.ok ⟨"notes.txt".data, "hello".data⟩,
         some (joinP rootW "notes.txt".data, "hello".data)) :=
  ⟨(c9_syntax_validation fs9 rootW "bad.rs".data "fn".data "expected item".data rustPW jsPW
      (joinP rootW "bad.rs".data) (by rfl)).1 (by decide) (by decide),
   (c9_syntax_validation fs9 rootW "bad.ts".data "const = ;".data "Unexpected token".data
      rustPW jsPW (joinP rootW "bad.ts".data) (by rfl)).2.1
      (by decide) (by decide) (by decide),
   (c9_syntax_validation fs9 rootW "notes.txt".data "hello".data [] rustPW jsPW
      (joinP rootW "notes.txt".data) (by rfl)).2.2 (by decide) (by decide)⟩

/-! ## Write-file consumer hint (find_usages and the write_file arm of
execute_tool, crates/agent_core/src/lib.rs) -/

/-- One grep hit as produced inside `search_code_internal`, before it is
rendered to the `"<relpath>:<lineno>: <text>"` string. -/
structure SearchMatch where
  path : List Char
  line : Nat
  text : List Char
deriving DecidableEq, Repr

/-- The `format!("{}:{}: {}", path_display, lnumm, line_str.trim())` rendering
in `search_code_internal`. -/
def formatMatch (m : SearchMatch) : List Char :=
  m.path ++ [':'] ++ natToChars m.line ++ [':', ' '] ++ trimChars m.text

/-- Rust `str::split_once(':')`. -/
def splitOnceColon (s : List Char) : Option (List Char × List Char) :=
  match listFind? [':'] s with
  | some i => some (s.take i, s.drop (i + 1))
  | none => none

/-- `Path::file_name` for the slash-separated relative paths the dispatcher
passes (no trailing separators, no `..` tail). -/
def fileNameOf (p : List Char) : List Char :=
  match rfindChar '/' p with
  | some i => p.drop (i + 1)
  | none => p

/-- `Path::file_stem` and `Path::extension` of a file name: split at the last
dot, except that a dot in leading position yields no extension. -/
def stemExtSplit (n : List Char) : List Char × Option (List Char) :=
  match rfindChar '.' n with
  | none => (n, none)
  | some 0 => (n, none)
  | some i => (n.take i, some (n.drop (i + 1)))

def fileStemOf (p : List Char) : Option (List Char) :=
  let n := fileNameOf p
  if n = [] then none else some (stemExtSplit n).1

def extOf (p : List Char) : Option (List Char) :=
  let n := fileNameOf p
  if n = [] then none else (stemExtSplit n).2

/-- `path_obj.parent().and_then(|p| p.file_name())`. -/
def parentNameOf (p : List Char) : Option (List Char) :=
  match rfindChar '/' p with
  | none => none
  | some i =>
    let par := p.take i
    if par = [] then none else some (fileNameOf par)

/-- The search-term derivation of `find_usages`: for `.rs` the file stem, with
`mod` replaced by the parent directory name; for `.ts`/`.tsx`/`.js`/`.jsx`
the file stem; `none` otherwise. -/
def searchTermOf (fp : List Char) : Option (List Char) :=
  let ext := (extOf fp).getD []
  if ext = "rs".data then
    match fileStemOf fp with
    | some stem => if stem = "mod".data then parentNameOf fp else some stem
    | none => none
  else if ext = "ts".data ∨ ext = "tsx".data ∨ ext = "js".data ∨ ext = "jsx".data then
    fileStemOf fp
  else none

/-- The characters `regex::escape` (regex-syntax) prefixes with a backslash. -/
def regexMeta : List Char :=
  ['\\', '.', '+', '*', '?', '(', ')', '|', '[', ']', '{', '}', '^', '$', '#', '&', '-', '~']

def regexEscape (t : List Char) : List Char :=
  t.foldr (fun c acc => if regexMeta.contains c then '\\' :: c :: acc else c :: acc) []

/-- The query `format!(r"\b{}\b", regex::escape(&term))`. -/
def usageQuery (term : List Char) : List Char :=
  ['\\', 'b'] ++ regexEscape term ++ ['\\', 'b']

/-- The consumer-collection loop of `find_usages`, operating on the formatted
match lines: re-parse the path as the part before the first `:`, skip the
written file, deduplicate. -/
def find_usages_consumers (fp : List Char) (lines : List (List Char)) : List (List Char) :=
  lines.foldl
    (fun acc m =>
      match splitOnceColon m with
      | some pr => if pr.1 ≠ fp ∧ ¬ acc.contains pr.1 then acc ++ [pr.1] else acc
      | none => acc)
    []

/-- `find_usages`. The search oracle stands for `search_code_internal root`
applied to the query string; in the model it always succeeds (the escaped term
always compiles as a regex, and walk errors are ignored by the code). -/
def find_usages (search : List Char → List SearchMatch) (fp : List Char) :
    Option (List (List Char)) :=
  match searchTermOf fp with
  | none => none
  | some term => some (find_usages_consumers fp ((search (usageQuery term)).map formatMatch))

/-- The hint rendering of the `write_file` arm of `execute_tool` after a
successful write: base message, and when any consumer remains the
`[Context Note]` list capped at 10 with overflow line and closing sentence. -/
def renderHint (consumers : List (List Char)) : List Char :=
  "Successfully wrote file.".data ++
  (if consumers.isEmpty then []
   else
     "\n\n[Context Note] This file is imported by:\n".data
     ++ (consumers.take 10).foldr (fun c acc => "- ".data ++ c ++ ['\n'] ++ acc) []
     ++ (if consumers.length > 10 then
           "... and ".data ++ natToChars (consumers.length - 10) ++ " more.\n".data
         else [])
     ++ "Ensure you have not broken these consumers.".data)

/-- The full tool output of a successful `write_file` dispatch. -/
def writeToolOutput (search : List Char → List SearchMatch) (fp : List Char) : List Char :=
  match find_usages search fp with
  | some consumers => renderHint consumers
  | none => "Successfully wrote file.".data

/-- The consumer list as the claim describes it: the matches' paths,
deduplicated, with the written file excluded — read structurally off the
matches rather than re-parsed from their rendered lines. -/
def specConsumers (fp : List Char) (ms : List SearchMatch) : List (List Char) :=
  ms.foldl
    (fun acc m => if m.path ≠ fp ∧ ¬ acc.contains m.path then acc ++ [m.path] else acc)
    []

/-- The claim's description of the post-write output: derive the term, search
for the word-bounded term, exclude the file and deduplicate by path, and
render the capped hint. -/
def specWriteHint (search : List Char → List SearchMatch) (fp : List Char) : List Char :=
  match searchTermOf fp with
  | none => "Successfully wrote file.".data
  | some term => renderHint (specConsumers fp (search (usageQuery term)))

theorem take_len_append {α : Type} (l r : List α) : (l ++ r).take l.length = l := by
  induction l with
  | nil => simp
  | cons c t ih => simp [ih]

theorem drop_len_succ_append {α : Type} (l r : List α) (c : α) :
    (l ++ c :: r).drop (l.length + 1) = r := by
  induction l with
  | nil => simp
  | cons a t ih => simpa using ih

/-- The path `find_usages` actually recovers from a rendered match line: the
first colon of `"<path>:<line>: <text>"` is the path's own first colon when it
has one (Unix paths may contain `:`), and otherwise the separator, so
`split_once(':')` always yields the portion of the path before its first
colon. -/
def pathKeyOf (m : SearchMatch) : List Char :=
  m.path.takeWhile (fun c => c != ':')

theorem listFind?_colon_gen (p r : List Char) :
    listFind? [':'] (p ++ ':' :: r)
      = some (p.takeWhile (fun c => c != ':')).length := by
  induction p with
  | nil => simp [listFind?, List.isPrefixOf, List.takeWhile]
  | cons c t ih =>
    by_cases hc : c = ':'
    · subst hc
      simp [listFind?, List.isPrefixOf, List.takeWhile]
    · have hcb : (c != ':') = true := by simp [hc]
      have hpre : ([':'] : List Char).isPrefixOf (c :: (t ++ ':' :: r)) = false := by
        simp [List.isPrefixOf]
        exact fun he => absurd he.symm hc
      simp [listFind?, hpre, ih, List.takeWhile, hcb]

theorem splitOnceColon_formatMatch (m : SearchMatch) :
    splitOnceColon (formatMatch m)
      = some (pathKeyOf m,
          (m.path ++ ':' :: (natToChars m.line ++ [':', ' '] ++ trimChars m.text)).drop
            ((pathKeyOf m).length + 1)) := by
  have hshape : formatMatch m
      = m.path ++ ':' :: (natToChars m.line ++ [':', ' '] ++ trimChars m.text) := by
    simp [formatMatch]
  rw [splitOnceColon, hshape, listFind?_colon_gen]
  simp only [Option.some.injEq, pathKeyOf, Prod.mk.injEq]
  refine ⟨?_, trivial⟩
  · conv_lhs =>
      rw [show m.path ++ ':' :: (natToChars m.line ++ [':', ' '] ++ trimChars m.text)
            = m.path.takeWhile (fun c => c != ':')
              ++ (m.path.dropWhile (fun c => c != ':')
                  ++ ':' :: (natToChars m.line ++ [':', ' '] ++ trimChars m.text)) from by
        rw [← List.append_assoc, List.takeWhile_append_dropWhile]]
    rw [take_len_append]

theorem consumers_eq_keys (fp : List Char) (ms : List SearchMatch) :
    ∀ acc : List (List Char),
      (ms.map formatMatch).foldl
        (fun acc m =>
          match splitOnceColon m with
          | some pr => if pr.1 ≠ fp ∧ ¬ acc.contains pr.1 then acc ++ [pr.1] else acc
          | none => acc)
        acc
      = ms.foldl
          (fun acc m =>
            if pathKeyOf m ≠ fp ∧ ¬ acc.contains (pathKeyOf m) then acc ++ [pathKeyOf m]
            else acc)
          acc := by
  induction ms with
  | nil => intro acc; rfl
  | cons m rest ih =>
    intro acc
    simp only [List.map_cons, List.foldl_cons, splitOnceColon_formatMatch m]
    exact ih _

/-- The consumer list as the amended claim describes it: matches keyed by the
portion of each match path before its first colon (the full path whenever the
path contains no colon), deduplicated, with the written file excluded by
comparing that key against the written path. -/
def specConsumersAmended (fp : List Char) (ms : List SearchMatch) : List (List Char) :=
  ms.foldl
    (fun acc m =>
      if pathKeyOf m ≠ fp ∧ ¬ acc.contains (pathKeyOf m) then acc ++ [pathKeyOf m] else acc)
    []

/-- The amended description of the post-write output. -/
def specWriteHintAmended (search : List Char → List SearchMatch) (fp : List Char) :
    List Char :=
  match searchTermOf fp with
  | none => "Successfully wrote file.".data
  | some term => renderHint (specConsumersAmended fp (search (usageQuery term)))

/-- A single word-boundary hit for `foo` whose path contains a colon. -/
def search8c : List Char → List SearchMatch :=
  fun _ => [⟨"a:b.rs".data, 1, "use foo;".data⟩]

/-- C8 counterexample: for a match in the colon-bearing path `a:b.rs`, the
dispatcher lists the consumer `a` — the prefix that `split_once(':')` recovers
from the rendered `a:b.rs:1: use foo;` line — while the claim's description
(dedupe/exclude by the match path itself, `specWriteHint`) lists `a:b.rs`;
the two outputs differ, refuting the claim as stated. -/
theorem c8_counterexample :
    writeToolOutput search8c "src/foo.rs".data
      = ("Successfully wrote file.\n\n[Context Note] This file is imported by:\n- a\nEnsure you have not broken these consumers.").data
    ∧ specWriteHint search8c "src/foo.rs".data
      = ("Successfully wrote file.\n\n[Context Note] This file is imported by:\n- a:b.rs\nEnsure you have not broken these consumers.").data
    ∧ writeToolOutput search8c "src/foo.rs".data ≠ specWriteHint search8c "src/foo.rs".data := by
  exact ⟨by decide, by decide, by decide⟩

/-- C8 (amended): after every successful `write_file` the dispatcher derives
the search term (for `.rs` the file stem, or the parent directory name when
the stem is `mod`; for `.ts`/`.tsx`/`.js`/`.jsx` the file stem), searches for
`\b<term>\b`, deduplicates the matches by the path re-parsed from the
rendered `"<path>:<line>: <text>"` line — the portion before the line's first
colon, equal to the match path exactly when that path contains no colon —
excludes the written file by comparing that re-parsed path against the written
path, and, when any consumer remains, appends the `[Context Note]` list of at
most 10 entries with the `"... and <k> more."` overflow line and the closing
sentence. Proved for every search result, with no side condition. -/
theorem c8_consumer_hint_amended (search : List Char → List SearchMatch) (fp : List Char) :
    writeToolOutput search fp = specWriteHintAmended search fp := by
  unfold writeToolOutput specWriteHintAmended find_usages
  cases hterm : searchTermOf fp with
  | none => rfl
  | some term =>
    simp only []
    have := consumers_eq_keys fp (search (usageQuery term)) []
    unfold find_usages_consumers specConsumersAmended
    rw [this]

def mkMatch (p : String) : SearchMatch := ⟨p.data, 1, "use foo;".data⟩

/-- Fourteen word-boundary hits for `foo`: the written file itself, a
duplicate of `a1.rs`, and twelve distinct consumers. -/
def searchW : List Char → List SearchMatch :=
  fun _ =>
    [mkMatch "a1.rs", mkMatch "src/foo.rs", mkMatch "a2.rs", mkMatch "a1.rs", mkMatch "a3.rs",
     mkMatch "a4.rs", mkMatch "a5.rs", mkMatch "a6.rs", mkMatch "a7.rs", mkMatch "a8.rs",
     mkMatch "a9.rs", mkMatch "b1.rs", mkMatch "b2.rs", mkMatch "b3.rs"]

set_option maxRecDepth 4000 in
theorem c8_consumer_hint_amended_witness :
    writeToolOutput searchW "src/foo.rs".data = specWriteHintAmended searchW "src/foo.rs".data
    ∧ writeToolOutput searchW "src/foo.rs".data
      = ("Successfully wrote file.\n\n[Context Note] This file is imported by:\n- a1.rs\n- a2.rs\n- a3.rs\n- a4.rs\n- a5.rs\n- a6.rs\n- a7.rs\n- a8.rs\n- a9.rs\n- b1.rs\n... and 2 more.\nEnsure you have not broken these consumers.").data :=
  ⟨c8_consumer_hint_amended searchW "src/foo.rs".data, by decide⟩

/-! ## build_file_tree (crates/workspace_manager/src/lib.rs) -/

/-- A directory subtree as `read_dir` exposes it: entries in OS order, each a
name with either a file or a directory below it. -/
inductive FsTree where
  | file : FsTree
  | dir : List (List Char × FsTree) → FsTree

/-- `FileEntry` from workspace_manager (`path` is the `/`-joined relative
path). Declared as a plain inductive so that functions can recurse through
`children`. -/
inductive FileEntry where
  | mk : (path : List Char) → (name : List Char) → (is_dir : Bool) →
         (children : Option (List FileEntry)) → FileEntry

def FileEntry.name : FileEntry → List Char
  | FileEntry.mk _ n _ _ => n

def FileEntry.is_dir : FileEntry → Bool
  | FileEntry.mk _ _ d _ => d

def FileEntry.children : FileEntry → Option (List FileEntry)
  | FileEntry.mk _ _ _ c => c

/-- The entry names `build_file_tree` skips. -/
def bannedName (n : List Char) : Bool :=
  n = ".git".data || n = "target".data || n = "node_modules".data || n = ".vscode".data

/-- `Path::strip_prefix` on component lists. -/
def stripPrefixP : List (List Char) → List (List Char) → Option (List (List Char))
  | [], p => some p
  | _ :: _, [] => none
  | r :: rs, x :: xs => if x = r then stripPrefixP rs xs else none

/-- `str::cmp`: lexicographic byte order, which for UTF-8 agrees with
lexicographic scalar-value order on the characters. -/
def cmpChars : List Char → List Char → Ordering
  | [], [] => Ordering.eq
  | [], _ :: _ => Ordering.lt
  | _ :: _, [] => Ordering.gt
  | a :: as, b :: bs =>
    if a < b then Ordering.lt else if b < a then Ordering.gt else cmpChars as bs

/-- `bool::cmp` (`false < true`). -/
def cmpBool : Bool → Bool → Ordering
  | false, false => Ordering.eq
  | true, true => Ordering.eq
  | false, true => Ordering.lt
  | true, false => Ordering.gt

/-- The `sort_by` comparator of `build_file_tree`: directories before files,
then by name. -/
def entCmp (a b : FileEntry) : Ordering :=
  if a.is_dir = b.is_dir then cmpChars a.name b.name else cmpBool b.is_dir a.is_dir

def entLe (a b : FileEntry) : Bool :=
  if entCmp a b = Ordering.gt then false else true

/-- Insertion sort; like Rust's stable `sort_by` it produces a list sorted
with respect to the comparator (and the same list, as names within a
directory are distinct, making the order total on the inputs that arise). -/
def insertSorted (le : FileEntry → FileEntry → Bool) (x : FileEntry) :
    List FileEntry → List FileEntry
  | [] => [x]
  | y :: ys => if le x y then x :: y :: ys else y :: insertSorted le x ys

def insertionSort (le : FileEntry → FileEntry → Bool) : List FileEntry → List FileEntry
  | [] => []
  | x :: xs => insertSorted le x (insertionSort le xs)

/-- The `for entry in read_dir` loop of `build_file_tree`: skip the filtered
names, compute the root-relative path (`InvalidPath` when `current_dir` is not
under `root`), recurse into directories (sorting the child list exactly as
`build_file_tree` does before returning it), keep files childless. The
recursion is driven by fuel decremented at every recursive call; a call chain
descends through pairwise-distinct list cells and subtrees, so the
`sizeOf entries + 1` supplied by `build_file_tree` can never run out (and a
hypothetical exhaustion yields an error, never a wrong `ok`). -/
def buildEntries : Nat → List (List Char) → List (List Char) →
    List (List Char × FsTree) → Except FsError (List FileEntry)
  | 0, _, _, _ => Except.error (FsError.Io ioMsg)
  | _ + 1, _, _, [] => Except.ok []
  | fuel + 1, root, cur, (name, t) :: rest =>
    if bannedName name then buildEntries fuel root cur rest
    else
      match stripPrefixP root (cur ++ [name]) with
      | none => Except.error FsError.InvalidPath
      | some r =>
        match t with
        | FsTree.file =>
          match buildEntries fuel root cur rest with
          | Except.error e => Except.error e
          | Except.ok restB =>
            Except.ok (FileEntry.mk (joinSep ['/'] r) name false none :: restB)
        | FsTree.dir sub =>
          match buildEntries fuel root (cur ++ [name]) sub with
          | Except.error e => Except.error e
          | Except.ok cs =>
            match buildEntries fuel root cur rest with
            | Except.error e => Except.error e
            | Except.ok restB =>
              Except.ok (FileEntry.mk (joinSep ['/'] r) name true
                (some (insertionSort entLe cs)) :: restB)

/-- `build_file_tree root current_dir` evaluated on the subtree rooted at
`current_dir` (`read_dir` of a non-directory is an io error whose OS text is
not modelled). Any `fuel` larger than the number of entries and subtrees below
`current_dir` reproduces the Rust recursion exactly; a smaller fuel can only
turn a result into an error, never produce a different `ok`, so theorems about
successful results hold for every fuel. -/
def build_file_tree (fuel : Nat) (root cur : List (List Char)) :
    FsTree → Except FsError (List FileEntry)
  | FsTree.file => Except.error (FsError.Io ioMsg)
  | FsTree.dir entries =>
    match buildEntries fuel root cur entries with
    | Except.error e => Except.error e
    | Except.ok es => Except.ok (insertionSort entLe es)

/-- Adjacent-pairs sortedness with respect to a boolean relation. -/
def sortedBy (le : FileEntry → FileEntry → Bool) : List FileEntry → Bool
  | [] => true
  | [_] => true
  | a :: b :: rest => le a b && sortedBy le (b :: rest)

mutual
/-- An output entry is good when its name is not one of the filtered names and
its children list (when present) is recursively good and sorted. -/
def goodEntry : FileEntry → Bool
  | FileEntry.mk _ name _ children =>
    !bannedName name &&
    (match children with
     | some c => goodList c && sortedBy entLe c
     | none => true)
termination_by e => sizeOf e
decreasing_by all_goals (simp_wf; try omega)

def goodList : List FileEntry → Bool
  | [] => true
  | e :: rest => goodEntry e && goodList rest
termination_by l => sizeOf l
decreasing_by all_goals (simp_wf; try omega)
end

theorem cmpChars_swap (a : List Char) : ∀ b, cmpChars b a = (cmpChars a b).swap := by
  induction a with
  | nil => intro b; cases b <;> simp [cmpChars, Ordering.swap]
  | cons x xs ih =>
    intro b
    cases b with
    | nil => simp [cmpChars, Ordering.swap]
    | cons y ys =>
      simp only [cmpChars]
      by_cases hxy : x < y
      · have hyx : ¬ y < x := lt_asymm hxy
        simp [hxy, hyx, Ordering.swap]
      · by_cases hyx : y < x
        · simp [hxy, hyx, Ordering.swap]
        · simp [hxy, hyx, ih ys]

theorem entLe_total (a b : FileEntry) : entLe a b = true ∨ entLe b a = true := by
  by_cases hd : a.is_dir = b.is_dir
  · have h1 : entCmp a b = cmpChars a.name b.name := by unfold entCmp; rw [if_pos hd]
    have h2 : entCmp b a = cmpChars b.name a.name := by unfold entCmp; rw [if_pos hd.symm]
    unfold entLe
    rw [h1, h2, cmpChars_swap a.name b.name]
    cases hcc : cmpChars a.name b.name <;> simp [Ordering.swap]
  · have h1 : entCmp a b = cmpBool b.is_dir a.is_dir := by
      unfold entCmp; rw [if_neg hd]
    have h2 : entCmp b a = cmpBool a.is_dir b.is_dir := by
      unfold entCmp; rw [if_neg (fun h => hd h.symm)]
    unfold entLe
    rw [h1, h2]
    cases ha : a.is_dir <;> cases hb : b.is_dir <;> simp_all [cmpBool]

theorem sortedBy_insert (le : FileEntry → FileEntry → Bool)
    (htot : ∀ a b, le a b = true ∨ le b a = true) (x : FileEntry) :
    ∀ l, sortedBy le l = true → sortedBy le (insertSorted le x l) = true := by
  intro l
  induction l with
  | nil => intro _; simp [insertSorted, sortedBy]
  | cons y ys ih =>
    intro hs
    by_cases hxy : le x y = true
    · simp [insertSorted, hxy, sortedBy, hs]
    · have hyx : le y x = true := (htot x y).resolve_left (fun h => hxy h)
      cases ys with
      | nil => simp [insertSorted, hxy, sortedBy, hyx]
      | cons z zs =>
        have hyz : le y z = true := by
          have h2 := hs; simp [sortedBy] at h2; exact h2.1
        have hsz : sortedBy le (z :: zs) = true := by
          have h2 := hs; simp [sortedBy] at h2; exact h2.2
        have hrec : sortedBy le (insertSorted le x (z :: zs)) = true := ih hsz
        by_cases hxz : le x z = true
        · simp [insertSorted, hxy, hxz, sortedBy, hyx, hyz, hsz]
        · have hgoal : insertSorted le x (y :: z :: zs) = y :: z :: insertSorted le x zs := by
            simp [insertSorted, hxy, hxz]
          have hinz : insertSorted le x (z :: zs) = z :: insertSorted le x zs := by
            simp [insertSorted, hxz]
          rw [hgoal]
          rw [hinz] at hrec
          simp [sortedBy, hyz, hrec]

theorem sortedBy_insertionSort (le : FileEntry → FileEntry → Bool)
    (htot : ∀ a b, le a b = true ∨ le b a = true) :
    ∀ l, sortedBy le (insertionSort le l) = true := by
  intro l
  induction l with
  | nil => simp [insertionSort, sortedBy]
  | cons x xs ih =>
    simp only [insertionSort]
    exact sortedBy_insert le htot x _ ih

theorem mem_insertSorted {le : FileEntry → FileEntry → Bool} {x a : FileEntry} :
    ∀ l, a ∈ insertSorted le x l → a = x ∨ a ∈ l := by
  intro l
  induction l with
  | nil => intro h; simp [insertSorted] at h; exact Or.inl h
  | cons y ys ih =>
    intro h
    by_cases hxy : le x y = true
    · simp [insertSorted, hxy] at h
      rcases h with h | h | h
      · exact Or.inl h
      · exact Or.inr (by simp [h])
      · exact Or.inr (by simp [h])
    · simp [insertSorted, hxy] at h
      rcases h with h | h
      · exact Or.inr (by simp [h])
      · rcases ih h with h1 | h1
        · exact Or.inl h1
        · exact Or.inr (by simp [h1])

theorem mem_insertionSort {le : FileEntry → FileEntry → Bool} {a : FileEntry} :
    ∀ l, a ∈ insertionSort le l → a ∈ l := by
  intro l
  induction l with
  | nil => intro h; simpa [insertionSort] using h
  | cons x xs ih =>
    intro h
    simp only [insertionSort] at h
    rcases mem_insertSorted _ h with h1 | h1
    · simp [h1]
    · simp [ih h1]

theorem goodList_iff : ∀ l : List FileEntry, goodList l = true ↔ ∀ e ∈ l, goodEntry e = true := by
  intro l
  induction l with
  | nil => simp [goodList]
  | cons e rest ih => simp [goodList, ih]

theorem goodList_insertionSort {l : List FileEntry} (h : goodList l = true) :
    goodList (insertionSort entLe l) = true := by
  rw [goodList_iff] at h ⊢
  exact fun e he => h e (mem_insertionSort _ he)

theorem buildEntries_good : ∀ (n : Nat) (root cur : List (List Char))
    (l : List (List Char × FsTree)) (es : List FileEntry),
    buildEntries n root cur l = Except.ok es → goodList es = true := by
  intro n
  induction n with
  | zero => intro root cur l es h; simp [buildEntries] at h
  | succ n ih =>
    intro root cur l es h
    cases l with
    | nil =>
      simp [buildEntries] at h
      subst h
      simp [goodList]
    | cons p rest =>
      obtain ⟨name, t⟩ := p
      by_cases hban : bannedName name = true
      · exact ih root cur rest es (by simpa [buildEntries, hban] using h)
      · cases hsp : stripPrefixP root (cur ++ [name]) with
        | none => simp [buildEntries, hban, hsp] at h
        | some r =>
          cases t with
          | file =>
            cases hrest : buildEntries n root cur rest with
            | error e => simp [buildEntries, hban, hsp, hrest] at h
            | ok restB =>
              have hes : es = FileEntry.mk (joinSep ['/'] r) name false none :: restB := by
                have h2 := h
                simp [buildEntries, hban, hsp, hrest] at h2
                exact h2.symm
              subst hes
              simp [goodList, goodEntry, hban, ih root cur rest restB hrest]
          | dir sub =>
            cases hsub : buildEntries n root (cur ++ [name]) sub with
            | error e => simp [buildEntries, hban, hsp, hsub] at h
            | ok cs =>
              cases hrest : buildEntries n root cur rest with
              | error e => simp [buildEntries, hban, hsp, hsub, hrest] at h
              | ok restB =>
                have hes : es = FileEntry.mk (joinSep ['/'] r) name true
                    (some (insertionSort entLe cs)) :: restB := by
                  have h2 := h
                  simp [buildEntries, hban, hsp, hsub, hrest] at h2
                  exact h2.symm
                subst hes
                have hcs := ih root (cur ++ [name]) sub cs hsub
                simp [goodList, goodEntry, hban, ih root cur rest restB hrest,
                  goodList_insertionSort hcs, sortedBy_insertionSort entLe entLe_total]


/-- C10: every successfully built file tree omits the entries named `.git`,
`target`, `node_modules` and `.vscode` at every level, and at every level the
entry list is sorted by the comparator: directories before files, each group
in name order (`goodList` checks the name filter and the sortedness of every
`children` list, `sortedBy` the top level). -/
theorem c10_tree_filtered_sorted (fuel : Nat) (root cur : List (List Char)) (t : FsTree)
    (es : List FileEntry) (h : build_file_tree fuel root cur t = Except.ok es) :
    (goodList es && sortedBy entLe es) = true := by
  cases t with
  | file => simp [build_file_tree] at h
  | dir entries =>
    cases hbe : buildEntries fuel root cur entries with
    | error e => simp [build_file_tree, hbe] at h
    | ok es2 =>
      have hes : es = insertionSort entLe es2 := by
        have h2 := h
        simp [build_file_tree, hbe] at h2
        exact h2.symm
      subst hes
      rw [Bool.and_eq_true]
      exact ⟨goodList_insertionSort (buildEntries_good _ root cur entries es2 hbe),
             sortedBy_insertionSort entLe entLe_total es2⟩

/-- A workspace rooted at `w` containing `src/mod.rs`, a `.git` directory to be
filtered out, a file `a.txt` and an empty directory `b`, listed by `read_dir`
in that (unsorted) order. -/
def treeEx : FsTree :=
  FsTree.dir [("src".data, FsTree.dir [("mod.rs".data, FsTree.file)]),
              (".git".data, FsTree.dir []),
              ("a.txt".data, FsTree.file),
              ("b".data, FsTree.dir [])]

def rootEx : List (List Char) := ["w".data]

/-- The tree `build_file_tree` returns on `treeEx`: `.git` gone, directories
`b` and `src` (name order) before the file `a.txt`. -/
def esEx : List FileEntry :=
  [FileEntry.mk "b".data "b".data true (some []),
   FileEntry.mk "src".data "src".data true
     (some [FileEntry.mk "src/mod.rs".data "mod.rs".data false none]),
   FileEntry.mk "a.txt".data "a.txt".data false none]

theorem c10_tree_filtered_sorted_witness :
    (goodList esEx && sortedBy entLe esEx) = true :=
  c10_tree_filtered_sorted 10 rootEx rootEx treeEx esEx (by rfl)
